/-
Verification of the Dynamo-style replicated key-value store.

Shallow embedding of the replication engine:
  * vector clocks        (node/vector_clock.py)
  * local version store  (node/storage.py)
  * consistent-hash ring (node/hash_ring.py)
  * membership merge     (node/membership.py)
  * quorum read / write  (node/replication.py) and the PUT handler (node/node.py)

Conventions of the embedding:
  * Python dicts of counters become association lists (List (String x Nat));
    lookups read the first matching key, which coincides with dict semantics
    because real dicts never hold duplicate keys.
  * Wall-clock timestamps (floats used only for bookkeeping and tie-breaks)
    are modelled as Nat and passed in explicitly.
  * Network effects are modelled by explicit outcome functions: an RPC to a
    peer either fails (timeout / refused / non-200) or yields a reply.
  * SHA-1 is modelled as an explicit hash parameter (String -> Nat); the code
    only ever treats the hash output as an opaque integer.
-/
import Mathlib

set_option linter.unusedVariables false

/-! ### Vector clocks (node/vector_clock.py) -/

/-- A vector clock: mapping node-id -> counter, as in VectorClock.clock. -/
abbrev VC := List (String × Nat)

/-- Read a coordinate; missing keys are implicitly zero
(Python: a.clock.get(k, 0)). -/
def vcGet (a : VC) (k : String) : Nat := (a.lookup k).getD 0

/-- The union of the key sets of two clocks
(Python: set(a.clock.keys()) | set(b.clock.keys())); iterating a list with
duplicates instead of a set does not change any of the any/all results below. -/
def vcKeys (a b : VC) : List String := a.map Prod.fst ++ b.map Prod.fst

namespace VectorClock

/-- VectorClock.compare from node/vector_clock.py: -1 less, 0 equal, 1
greater, 2 concurrent.  The source sets a_less when some coordinate of a is
below b and b_less when some coordinate of a is above b; the if/elif in the
source is equivalent to the two independent scans because the two strict
inequalities at one key are mutually exclusive. -/
def compare (a b : VC) : Int :=
  let a_less := (vcKeys a b).any fun k => decide (vcGet a k < vcGet b k)
  let b_less := (vcKeys a b).any fun k => decide (vcGet b k < vcGet a k)
  if a_less && !b_less then -1
  else if b_less && !a_less then 1
  else if !a_less && !b_less then 0
  else 2

end VectorClock

/-- Write one coordinate of a clock, replacing the first occurrence of the
key or appending it (dict assignment). -/
def vcSet : VC → String → Nat → VC
  | [], k, v => [(k, v)]
  | (k', v') :: rest, k, v =>
    if k' = k then (k, v) :: rest else (k', v') :: vcSet rest k v

/-- VectorClock.increment: clock[node] = clock.get(node, 0) + 1. -/
def vcIncrement (a : VC) (node_id : String) : VC :=
  vcSet a node_id (vcGet a node_id + 1)

/-! ### Local store (node/storage.py) -/

/-- A stored version: value, vector clock and wall-clock timestamp. -/
structure Version where
  value : String
  vc : VC
  ts : Nat
deriving DecidableEq, Repr

/-- Lexicographic order on clock entries used to canonicalise a clock
(Python: sorted(vc.items())). -/
def pairLE (p q : String × Nat) : Prop :=
  p.1 < q.1 ∨ (p.1 = q.1 ∧ p.2 ≤ q.2)

instance : DecidableRel pairLE := fun p q => by
  unfold pairLE; infer_instance

/-- Canonical sorted form of a clock's entry list. -/
def sortPairs (l : VC) : VC := l.insertionSort pairLE

/-- Deduplication signature (value, canonical(vc)) from storage._signature. -/
def signature (v : Version) : String × VC := (v.value, sortPairs v.vc)

/-- Dominance pruning shared by put_local / merge_remote_versions /
replication._merge_version_lists / the repair endpoint: keep v iff no w in
the same list has compare(v.vc, w.vc) = -1.  The source skips w when v is w
(object identity); that skip never changes the verdict because a clock never
compares LESS to an equal clock (compare of equal clocks is 0). -/
def pruneDominated (all_versions : List Version) : List Version :=
  all_versions.filter fun v =>
    !(all_versions.any fun w => decide (VectorClock.compare v.vc w.vc = -1))

/-- Deduplicate by signature, keeping first occurrences (the seen-set loop
in storage.py). -/
def dedupeGo : List Version → List (String × VC) → List Version
  | [], _ => []
  | v :: rest, seen =>
    let sig := signature v
    if seen.contains sig then dedupeGo rest seen
    else v :: dedupeGo rest (sig :: seen)

/-- Deduplicate exact identical (value + vc). -/
def dedupe (l : List Version) : List Version := dedupeGo l []

/-- The in-memory store _STORE: key -> list of versions, absent keys read
as the empty list. -/
def Store := String → List Version

def emptyStore : Store := fun _ => []

/-- Point update of the store (dict assignment _STORE[key] = ...). -/
def storeSet (s : Store) (k : String) (vs : List Version) : Store :=
  fun k' => if k' = k then vs else s k'

/-- storage.put_local: append the candidate, prune dominated versions,
dedupe, store, and return the canonical stored version (the entry matching
the candidate's signature, else the last kept entry, else the candidate). -/
def put_local (s : Store) (key value : String) (vc : VC) (ts : Nat) :
    Store × Version :=
  let versions := s key
  let candidate : Version := ⟨value, vc, ts⟩
  let all_versions := versions ++ [candidate]
  let keep := pruneDominated all_versions
  let unique := dedupe keep
  let s' := storeSet s key unique
  let cand_sig := signature candidate
  match unique.find? (fun v => decide (signature v = cand_sig)) with
  | some v => (s', v)
  | none =>
    match unique.getLast? with
    | some v => (s', v)
    | none => (s', candidate)

/-- storage.get_local_versions: snapshot of the current set. -/
def get_local_versions (s : Store) (key : String) : List Version := s key

/-- storage.overwrite_local_versions: replace the set with the caller's
list, no pruning or dedup. -/
def overwrite_local_versions (s : Store) (key : String)
    (versions : List Version) : Store :=
  storeSet s key versions

/-- storage.merge_remote_versions: union with local, prune dominated,
dedupe, persist, return the new set. -/
def merge_remote_versions (s : Store) (key : String)
    (remote_versions : List Version) : Store × List Version :=
  let all_versions := get_local_versions s key ++ remote_versions
  let unique := dedupe (pruneDominated all_versions)
  (overwrite_local_versions s key unique, unique)

/-- One store operation, for stating the store invariant. -/
inductive StoreOp where
  | put (key value : String) (vc : VC) (ts : Nat)
  | mergeRemote (key : String) (remote : List Version)
  | overwrite (key : String) (versions : List Version)

/-- Apply one operation to the store. -/
def applyOp (s : Store) : StoreOp → Store
  | .put k v vc ts => (put_local s k v vc ts).1
  | .mergeRemote k remote => (merge_remote_versions s k remote).1
  | .overwrite k versions => overwrite_local_versions s k versions

/-- Run a sequence of store operations. -/
def runOps (s : Store) (ops : List StoreOp) : Store := ops.foldl applyOp s

/-- No version in the list is strictly dominated by another member. -/
def DominanceFree (l : List Version) : Prop :=
  ∀ v ∈ l, ∀ w ∈ l, VectorClock.compare v.vc w.vc ≠ -1

instance (l : List Version) : Decidable (DominanceFree l) := by
  unfold DominanceFree; infer_instance

/-- Side condition for the amended invariant: overwrite_local_versions is
only given dominance-free lists (the callers inside the engine always pass
pruned lists). -/
def opOk : StoreOp → Prop
  | .overwrite _ versions => DominanceFree versions
  | _ => True

instance (op : StoreOp) : Decidable (opOk op) := by
  cases op <;> · unfold opOk; infer_instance

/-! ### Hash ring (node/hash_ring.py) -/

/-- The consistent-hash ring state.  ring is the sorted position list;
vnodeMap maps position -> vnode id; vnodeToNode maps vnode id -> physical
node id; nodes is the physical node set (in insertion order). -/
structure HashRing where
  vnodes : Nat
  ring : List Nat
  vnodeMap : List (Nat × String)
  vnodeToNode : List (String × String)
  nodes : List String
deriving Repr

/-- bisect.insort: insert into a sorted list, after any equal elements. -/
def insortNat (x : Nat) : List Nat → List Nat
  | [] => [x]
  | y :: ys => if x < y then x :: y :: ys else y :: insortNat x ys

/-- Resolve a ring position to its physical node
(self._vnode_to_node[self._vnode_map[pos]]); total with default "" in place
of a KeyError, which ring well-formedness rules out. -/
def HashRing.nodeAt (r : HashRing) (pos : Nat) : String :=
  match r.vnodeMap.lookup pos with
  | some vn =>
    match r.vnodeToNode.lookup vn with
    | some n => n
    | none => ""
  | none => ""

/-- The collision loop of add_node: perturb the vnode id with underscores
and rehash until the position is unused.  The source loop has no bound; the
embedding uses explicit fuel and reports none when it runs out (the source
would spin forever on such a pathological hash). -/
def findFreshPos (h : String → Nat) (vnodeMap : List (Nat × String)) :
    String → Nat → Option (String × Nat)
  | _, 0 => none
  | vn, fuel + 1 =>
    let pos := h vn
    if (vnodeMap.lookup pos).isSome then
      findFreshPos h vnodeMap (vn ++ "_") fuel
    else some (vn, pos)

/-- Place one virtual node i of node_id on the ring. -/
def addVnode (h : String → Nat) (r : HashRing) (node_id : String)
    (i fuel : Nat) : Option HashRing :=
  match findFreshPos h r.vnodeMap (node_id ++ "#" ++ toString i) fuel with
  | none => none
  | some (vn, pos) =>
    some { r with
      ring := insortNat pos r.ring
      vnodeMap := (pos, vn) :: r.vnodeMap
      vnodeToNode := (vn, node_id) :: r.vnodeToNode }

/-- Place the virtual nodes i, i+1, ..., i+cnt-1 of node_id. -/
def addVnodesFrom (h : String → Nat) (node_id : String) (fuel : Nat) :
    HashRing → Nat → Nat → Option HashRing
  | r, _, 0 => some r
  | r, i, cnt + 1 =>
    match addVnode h r node_id i fuel with
    | none => none
    | some r' => addVnodesFrom h node_id fuel r' (i + 1) cnt

/-- HashRing.add_node: register the physical node and place its vnodes
virtual nodes (no-op when already present). -/
def addNode (h : String → Nat) (r : HashRing) (node_id : String)
    (fuel : Nat) : Option HashRing :=
  if node_id ∈ r.nodes then some r
  else addVnodesFrom h node_id fuel { r with nodes := r.nodes ++ [node_id] } 0 r.vnodes

/-- The HashRing constructor: add every node to an empty ring. -/
def buildRing (h : String → Nat) (nodes : List String) (vnodes fuel : Nat) :
    Option HashRing :=
  nodes.foldlM (fun r n => addNode h r n fuel)
    { vnodes := vnodes, ring := [], vnodeMap := [], vnodeToNode := [], nodes := [] }

/-- The clockwise collection loop of get_replicas.  The source iterates
i = idx, idx+1, ... over ring[i % ring_len] and stops after a full
revolution; here the (at most ring_len) positions visited are passed as an
explicit list.  Checks appear in source order: quota, then duplicate
physical node, then liveness. -/
def walkRing (nodeOf : Nat → String) (alive : Option (List String))
    (desired : Nat) : List Nat → List String → List String → List String
  | [], res, _ => res
  | pos :: rest, res, seen =>
    if res.length < desired then
      let node := nodeOf pos
      if seen.contains node then walkRing nodeOf alive desired rest res seen
      else if (match alive with
               | some a => !(a.contains node)
               | none => false) then
        walkRing nodeOf alive desired rest res seen
      else walkRing nodeOf alive desired rest (res ++ [node]) (node :: seen)
    else res

/-- bisect.bisect (bisect_right) on the sorted ring: the number of
positions at most key_pos, i.e. the index of the first position strictly
greater than key_pos. -/
def bisectRight (ring : List Nat) (key_pos : Nat) : Nat :=
  ring.countP fun p => decide (p ≤ key_pos)

/-- HashRing.get_replicas: up to N distinct physical nodes clockwise from
the key's position, optionally filtered by the alive set. -/
def HashRing.get_replicas (r : HashRing) (h : String → Nat) (key : String)
    (N : Nat) (alive : Option (List String)) : List String :=
  if r.ring.isEmpty then []
  else
    let key_pos := h key
    let idx := bisectRight r.ring key_pos
    walkRing r.nodeAt alive N (r.ring.drop idx ++ r.ring.take idx) [] []

/-- One step of the specification-level collector: append the node when the
quota is not reached, it is new, and it is alive. -/
def stepCollect (alive : Option (List String)) (N : Nat)
    (res : List String) (node : String) : List String :=
  if res.length < N && !(res.contains node) &&
      (match alive with | some a => a.contains node | none => true) then
    res ++ [node]
  else res

/-- Specification-level collector: walk the node ids in order, collecting
distinct alive ids until N are found. -/
def collectAlive (alive : Option (List String)) (N : Nat)
    (ids : List String) : List String :=
  ids.foldl (stepCollect alive N) []

/-- Reading of the spec sentence for get_replicas, with the walk starting
at the first ring position greater than or equal to hash(key): used to
compare against the code, which starts strictly after hash(key). -/
def getReplicasSpecGE (r : HashRing) (h : String → Nat) (key : String)
    (N : Nat) (alive : Option (List String)) : List String :=
  if r.ring.isEmpty then []
  else
    let key_pos := h key
    let idx := r.ring.findIdx fun q => decide (key_pos ≤ q)
    collectAlive alive N (((r.ring.drop idx) ++ (r.ring.take idx)).map r.nodeAt)

/-- Amended reading: the walk starts at the first ring position strictly
greater than hash(key) (wrapping), collecting distinct alive node ids. -/
def getReplicasSpecGT (r : HashRing) (h : String → Nat) (key : String)
    (N : Nat) (alive : Option (List String)) : List String :=
  if r.ring.isEmpty then []
  else
    let key_pos := h key
    let idx := r.ring.findIdx fun q => decide (key_pos < q)
    collectAlive alive N (((r.ring.drop idx) ++ (r.ring.take idx)).map r.nodeAt)

/-- Adjacent-sorted check for a position list. -/
def sortedLeB : List Nat → Bool
  | [] => true
  | [_] => true
  | x :: y :: t => decide (x ≤ y) && sortedLeB (y :: t)

/-! ### Membership merge (node/membership.py) -/

/-- One membership table record. -/
structure MemberEntry where
  status : String
  incarnation : Nat
  timestamp : Nat
deriving DecidableEq, Repr

/-- A membership table: node id -> record. -/
abbrev MemberTable := List (String × MemberEntry)

/-- Dict assignment membership[node] = data for an existing key: replace
the first binding of the key, or append when absent. -/
def setEntry : MemberTable → String → MemberEntry → MemberTable
  | [], k, e => [(k, e)]
  | (k', e') :: rest, k, e =>
    if k' = k then (k, e) :: rest else (k', e') :: setEntry rest k e

/-- One iteration of the merge loop of MembershipService._merge: adopt an
unknown node; otherwise a strictly higher incarnation wins, and on equal
incarnations a strictly newer timestamp wins; in all other cases keep the
local record. -/
def mergeEntryStep (acc : MemberTable) (p : String × MemberEntry) :
    MemberTable :=
  match acc.lookup p.1 with
  | none => acc ++ [(p.1, p.2)]
  | some local_data =>
    if local_data.incarnation < p.2.incarnation then setEntry acc p.1 p.2
    else if p.2.incarnation = local_data.incarnation then
      (if local_data.timestamp < p.2.timestamp then setEntry acc p.1 p.2
       else acc)
    else acc

/-- MembershipService._merge: fold the merge rule over the received
table. -/
def membershipMerge (lcl : MemberTable) (remote : MemberTable) : MemberTable :=
  remote.foldl mergeEntryStep lcl

/-! ### Replication (node/replication.py) and the PUT handler (node/node.py) -/

/-- Outcome of one get_local RPC at the network level: none models a failed
RPC (timeout, connection refused, exception, non-200), some vs a 200 reply
carrying a version list. -/
abbrev GetLocalOutcome := Option (List Version)

/-- replication._rpc_get_local: a 200 reply yields its version list and
every failure path yields the empty list; the function returns a list on
every path and never None. -/
def rpc_get_local (outcome : GetLocalOutcome) : List Version :=
  outcome.getD []

/-- replication._merge_version_lists: dominance pruning then signature
dedup of a flat version list. -/
def merge_version_lists (all_versions : List Version) : List Version :=
  dedupe (pruneDominated all_versions)

/-- Result triple of quorum_read. -/
structure ReadResult where
  ok : Bool
  merged : List Version
  responders : List String
deriving Repr

/-- replication.quorum_read: fan get_local RPCs to every candidate, count
responses, and on quorum flatten, prune, dedupe and overwrite the local
entry.  The source computes responders and success_count by filtering the
results on vers is not None; _rpc_get_local returns a (possibly empty)
list on every path, so that filter keeps every candidate and the count
equals the number of candidates.  Read-repair pushes are fire-and-forget
RPCs to peers and do not affect the coordinator state modelled here. -/
def quorum_read (s : Store) (key : String) (candidates : List String)
    (R : Nat) (outcome : String → GetLocalOutcome) : Store × ReadResult :=
  let results := candidates.map fun n => (n, rpc_get_local (outcome n))
  let responders := results.map Prod.fst
  let success_count := results.length
  if success_count < R then (s, ⟨false, [], responders⟩)
  else
    let flat := results.flatMap Prod.snd
    let merged := merge_version_lists flat
    (overwrite_local_versions s key merged, ⟨true, merged, responders⟩)

/-- Result of quorum_write. -/
structure WriteResult where
  success : Bool
  succeeded : List String
  failed : List String
  stored : Version
deriving Repr

/-- The replicate fan-out targets: every candidate except the
coordinator. -/
def rpcTargets (candidates : List String) (local_node_id : String) :
    List String :=
  candidates.filter fun n => n != local_node_id

/-- replication.quorum_write: derive the write's clock from parent_vc (the
empty clock when absent) by incrementing the coordinator entry, store it
locally with put_local, replicate to every candidate except self, and
report success when the success count (self included) reaches W.  rpcOk
gives the outcome of each replicate RPC. -/
def quorum_write (s : Store) (key value : String) (candidates : List String)
    (W : Nat) (local_node_id : String) (parent_vc : Option VC) (ts : Nat)
    (rpcOk : String → Bool) : Store × WriteResult :=
  let vc0 : VC := match parent_vc with | none => [] | some p => p
  let vc := vcIncrement vc0 local_node_id
  let res := put_local s key value vc ts
  let targets := rpcTargets candidates local_node_id
  let succeeded := (targets.filter rpcOk) ++ [local_node_id]
  let failed := targets.filter fun n => !(rpcOk n)
  (res.1, ⟨decide (W ≤ succeeded.length), succeeded, failed, res.2⟩)

/-- The parent-clock merge loop of node.put_handler: for every parent
version, absorb each clock entry with a coordinate-wise max. -/
def vcAbsorb (acc : VC) (entries : VC) : VC :=
  entries.foldl (fun a p => vcSet a p.1 (max (vcGet a p.1) p.2)) acc

/-- merged = coordinate-wise max over all parent version clocks. -/
def mergedParentVC (parent_vcs : List VC) : VC :=
  parent_vcs.foldl vcAbsorb []

/-- Response body of the PUT handler. -/
structure PutResponse where
  success : Bool
  requested_replicas : List String
  responded_to_parent_read : List String
  succeeded : List String
  failed : List String
  used_vc : VC
  stored_version : Version
deriving Repr

/-- node.put_handler after candidate selection: quorum read for parents,
coordinate-wise merge of the parent clocks, increment of the coordinator
entry, then quorum_write with that clock as parent_vc (quorum_write
increments the coordinator entry once more on its own). -/
def put_handler (s : Store) (node_id key value : String)
    (candidates : List String) (R W : Nat)
    (readOutcome : String → GetLocalOutcome) (writeOk : String → Bool)
    (ts : Nat) : Store × PutResponse :=
  let qr := quorum_read s key candidates R readOutcome
  let parent_versions := if qr.2.ok then qr.2.merged else []
  let merged := mergedParentVC (parent_versions.map Version.vc)
  let parent_vc := vcIncrement merged node_id
  let qw := quorum_write qr.1 key value candidates W node_id (some parent_vc)
    ts writeOk
  (qw.1,
   ⟨qw.2.success, candidates, qr.2.responders, qw.2.succeeded, qw.2.failed,
    qw.2.stored.vc, qw.2.stored⟩)

/-! ### Concrete fixtures used by witnesses and counterexamples -/

/-- A toy hash placing the single vnode of n1 at 10 and of n2 at 20, and
hashing the client key "K" to exactly 10 (with SHA-1 this happens, e.g.,
when the client key literally equals the vnode label "n1#0"). -/
def hToy : String → Nat := fun s =>
  if s = "n1#0" then 10 else if s = "n2#0" then 20
  else if s = "K" then 10 else 0

/-- The two-node one-vnode ring built by the constructor from hToy. -/
def ringToy : HashRing :=
  (buildRing hToy ["n1", "n2"] 1 5).getD ⟨1, [], [], [], []⟩

/-! ### Vector-clock order: characterisation of compare -/

theorem lookup_some_mem_keys {l : VC} {k : String} {v : Nat}
    (h : l.lookup k = some v) : k ∈ l.map Prod.fst := by
  induction l with
  | nil => simp [List.lookup] at h
  | cons p t ih =>
    rw [List.lookup] at h
    cases hk : (k == p.1) with
    | true =>
      simp only [List.map, List.mem_cons]
      exact Or.inl (eq_of_beq hk)
    | false =>
      rw [hk] at h
      simp only [List.map, List.mem_cons]
      exact Or.inr (ih h)

theorem vcGet_ne_zero_mem {a : VC} {k : String} (h : vcGet a k ≠ 0) :
    k ∈ a.map Prod.fst := by
  unfold vcGet at h
  cases hl : a.lookup k with
  | none => rw [hl] at h; simp at h
  | some v => exact lookup_some_mem_keys hl

theorem aLess_eq_true_iff (a b : VC) :
    ((vcKeys a b).any fun k => decide (vcGet a k < vcGet b k)) = true ↔
      ∃ k, vcGet a k < vcGet b k := by
  rw [List.any_eq_true]
  constructor
  · rintro ⟨k, _, hk⟩
    exact ⟨k, of_decide_eq_true hk⟩
  · rintro ⟨k, hk⟩
    refine ⟨k, ?_, decide_eq_true hk⟩
    have hb : vcGet b k ≠ 0 := by omega
    exact List.mem_append_right _ (vcGet_ne_zero_mem hb)

theorem bLess_eq_true_iff (a b : VC) :
    ((vcKeys a b).any fun k => decide (vcGet b k < vcGet a k)) = true ↔
      ∃ k, vcGet b k < vcGet a k := by
  rw [List.any_eq_true]
  constructor
  · rintro ⟨k, _, hk⟩
    exact ⟨k, of_decide_eq_true hk⟩
  · rintro ⟨k, hk⟩
    refine ⟨k, ?_, decide_eq_true hk⟩
    have ha : vcGet a k ≠ 0 := by omega
    exact List.mem_append_left _ (vcGet_ne_zero_mem ha)

theorem compare_neg_one_iff (a b : VC) :
    VectorClock.compare a b = -1 ↔
      ((∀ k, vcGet a k ≤ vcGet b k) ∧ ∃ k, vcGet a k < vcGet b k) := by
  unfold VectorClock.compare
  cases hA : (vcKeys a b).any fun k => decide (vcGet a k < vcGet b k) with
  | false =>
    have hA' : ¬ ∃ k, vcGet a k < vcGet b k := by
      rw [← aLess_eq_true_iff a b, hA]; simp
    cases hB : (vcKeys a b).any fun k => decide (vcGet b k < vcGet a k) <;>
      simp [hA', fun h => hA' h]
  | true =>
    have hA' : ∃ k, vcGet a k < vcGet b k := (aLess_eq_true_iff a b).mp hA
    cases hB : (vcKeys a b).any fun k => decide (vcGet b k < vcGet a k) with
    | false =>
      have hB' : ¬ ∃ k, vcGet b k < vcGet a k := by
        rw [← bLess_eq_true_iff a b, hB]; simp
      simp only [Bool.true_and, Bool.not_false, Bool.not_true, Bool.false_and,
        if_true, reduceIte]
      constructor
      · intro _
        refine ⟨fun k => ?_, hA'⟩
        by_contra hk
        exact hB' ⟨k, by omega⟩
      · intro _; trivial
    | true =>
      have hB' : ∃ k, vcGet b k < vcGet a k := (bLess_eq_true_iff a b).mp hB
      simp only [Bool.true_and, Bool.not_true, Bool.false_and, Bool.and_false,
        reduceIte]
      constructor
      · intro h; exact absurd h (by decide)
      · rintro ⟨hall, -⟩
        obtain ⟨k, hk⟩ := hB'
        exact absurd (hall k) (by omega)

theorem compare_one_iff (a b : VC) :
    VectorClock.compare a b = 1 ↔
      ((∀ k, vcGet b k ≤ vcGet a k) ∧ ∃ k, vcGet b k < vcGet a k) := by
  unfold VectorClock.compare
  cases hA : (vcKeys a b).any fun k => decide (vcGet a k < vcGet b k) with
  | false =>
    have hA' : ¬ ∃ k, vcGet a k < vcGet b k := by
      rw [← aLess_eq_true_iff a b, hA]; simp
    cases hB : (vcKeys a b).any fun k => decide (vcGet b k < vcGet a k) with
    | false =>
      have hB' : ¬ ∃ k, vcGet b k < vcGet a k := by
        rw [← bLess_eq_true_iff a b, hB]; simp
      simp only [Bool.false_and, Bool.not_false, Bool.and_true, Bool.true_and,
        reduceIte]
      constructor
      · intro h; exact absurd h (by decide)
      · rintro ⟨-, hex⟩; exact absurd hex hB'
    | true =>
      have hB' : ∃ k, vcGet b k < vcGet a k := (bLess_eq_true_iff a b).mp hB
      simp only [Bool.false_and, Bool.not_false, Bool.and_true, Bool.true_and,
        reduceIte]
      constructor
      · intro _
        refine ⟨fun k => ?_, hB'⟩
        by_contra hk
        exact hA' ⟨k, by omega⟩
      · intro _; trivial
  | true =>
    have hA' : ∃ k, vcGet a k < vcGet b k := (aLess_eq_true_iff a b).mp hA
    cases hB : (vcKeys a b).any fun k => decide (vcGet b k < vcGet a k) with
    | false =>
      simp only [Bool.true_and, Bool.not_false, Bool.not_true, Bool.false_and,
        reduceIte]
      constructor
      · intro h; exact absurd h (by decide)
      · rintro ⟨hall, -⟩
        obtain ⟨k, hk⟩ := hA'
        exact absurd (hall k) (by omega)
    | true =>
      simp only [Bool.true_and, Bool.not_true, Bool.false_and, Bool.and_false,
        reduceIte]
      constructor
      · intro h; exact absurd h (by decide)
      · rintro ⟨hall, -⟩
        obtain ⟨k, hk⟩ := hA'
        exact absurd (hall k) (by omega)

theorem compare_zero_iff (a b : VC) :
    VectorClock.compare a b = 0 ↔ (∀ k, vcGet a k = vcGet b k) := by
  unfold VectorClock.compare
  cases hA : (vcKeys a b).any fun k => decide (vcGet a k < vcGet b k) with
  | false =>
    have hA' : ¬ ∃ k, vcGet a k < vcGet b k := by
      rw [← aLess_eq_true_iff a b, hA]; simp
    cases hB : (vcKeys a b).any fun k => decide (vcGet b k < vcGet a k) with
    | false =>
      have hB' : ¬ ∃ k, vcGet b k < vcGet a k := by
        rw [← bLess_eq_true_iff a b, hB]; simp
      simp only [Bool.false_and, Bool.not_false, Bool.and_true, Bool.true_and,
        reduceIte]
      constructor
      · intro _ k
        have h1 : ¬ vcGet a k < vcGet b k := fun h => hA' ⟨k, h⟩
        have h2 : ¬ vcGet b k < vcGet a k := fun h => hB' ⟨k, h⟩
        omega
      · intro _; trivial
    | true =>
      have hB' : ∃ k, vcGet b k < vcGet a k := (bLess_eq_true_iff a b).mp hB
      simp only [Bool.false_and, Bool.not_false, Bool.and_true, Bool.true_and,
        reduceIte]
      constructor
      · intro h; exact absurd h (by decide)
      · intro hall
        obtain ⟨k, hk⟩ := hB'
        exact absurd (hall k) (by omega)
  | true =>
    have hA' : ∃ k, vcGet a k < vcGet b k := (aLess_eq_true_iff a b).mp hA
    cases hB : (vcKeys a b).any fun k => decide (vcGet b k < vcGet a k) <;>
    · simp only [Bool.true_and, Bool.not_true, Bool.false_and, Bool.and_false,
        Bool.not_false, Bool.and_true, reduceIte]
      constructor
      · intro h; exact absurd h (by decide)
      · intro hall
        obtain ⟨k, hk⟩ := hA'
        exact absurd (hall k) (by omega)

theorem compare_two_iff (a b : VC) :
    VectorClock.compare a b = 2 ↔
      ((∃ k, vcGet a k < vcGet b k) ∧ ∃ k, vcGet b k < vcGet a k) := by
  unfold VectorClock.compare
  cases hA : (vcKeys a b).any fun k => decide (vcGet a k < vcGet b k) with
  | false =>
    have hA' : ¬ ∃ k, vcGet a k < vcGet b k := by
      rw [← aLess_eq_true_iff a b, hA]; simp
    cases hB : (vcKeys a b).any fun k => decide (vcGet b k < vcGet a k) <;>
    · simp only [Bool.false_and, Bool.not_false, Bool.and_true, Bool.true_and,
        reduceIte]
      constructor
      · intro h; exact absurd h (by decide)
      · rintro ⟨hex, -⟩; exact absurd hex hA'
  | true =>
    have hA' : ∃ k, vcGet a k < vcGet b k := (aLess_eq_true_iff a b).mp hA
    cases hB : (vcKeys a b).any fun k => decide (vcGet b k < vcGet a k) with
    | false =>
      have hB' : ¬ ∃ k, vcGet b k < vcGet a k := by
        rw [← bLess_eq_true_iff a b, hB]; simp
      simp only [Bool.true_and, Bool.not_false, Bool.not_true, Bool.false_and,
        reduceIte]
      constructor
      · intro h; exact absurd h (by decide)
      · rintro ⟨-, hex⟩; exact absurd hex hB'
    | true =>
      have hB' : ∃ k, vcGet b k < vcGet a k := (bLess_eq_true_iff a b).mp hB
      simp only [Bool.true_and, Bool.not_true, Bool.false_and, Bool.and_false,
        reduceIte]
      constructor
      · intro _; exact ⟨hA', hB'⟩
      · intro _; trivial

theorem compare_self (a : VC) : VectorClock.compare a a = 0 :=
  (compare_zero_iff a a).mpr fun _ => rfl

theorem compare_lt_trans {a b c : VC} (hab : VectorClock.compare a b = -1)
    (hbc : VectorClock.compare b c = -1) : VectorClock.compare a c = -1 := by
  obtain ⟨hab1, k1, hk1⟩ := (compare_neg_one_iff a b).mp hab
  obtain ⟨hbc1, k2, hk2⟩ := (compare_neg_one_iff b c).mp hbc
  refine (compare_neg_one_iff a c).mpr ⟨fun k => le_trans (hab1 k) (hbc1 k), k1, ?_⟩
  exact lt_of_lt_of_le hk1 (hbc1 k1)

theorem compare_eq_values (a b : VC) :
    VectorClock.compare a b = -1 ∨ VectorClock.compare a b = 0 ∨
    VectorClock.compare a b = 1 ∨ VectorClock.compare a b = 2 := by
  unfold VectorClock.compare
  cases (vcKeys a b).any fun k => decide (vcGet a k < vcGet b k) <;>
  cases (vcKeys a b).any fun k => decide (vcGet b k < vcGet a k) <;> simp

theorem compare_ext_left {a a' : VC} (b : VC)
    (h : ∀ k, vcGet a k = vcGet a' k) :
    VectorClock.compare a b = VectorClock.compare a' b := by
  rcases compare_eq_values a b with hc | hc | hc | hc <;> rw [hc]
  · obtain ⟨h1, k, hk⟩ := (compare_neg_one_iff a b).mp hc
    exact ((compare_neg_one_iff a' b).mpr
      ⟨fun k' => h k' ▸ h1 k', k, h k ▸ hk⟩).symm
  · have h1 := (compare_zero_iff a b).mp hc
    exact ((compare_zero_iff a' b).mpr fun k => (h k) ▸ h1 k).symm
  · obtain ⟨h1, k, hk⟩ := (compare_one_iff a b).mp hc
    exact ((compare_one_iff a' b).mpr
      ⟨fun k' => h k' ▸ h1 k', k, h k ▸ hk⟩).symm
  · obtain ⟨⟨k1, hk1⟩, k2, hk2⟩ := (compare_two_iff a b).mp hc
    exact ((compare_two_iff a' b).mpr
      ⟨⟨k1, h k1 ▸ hk1⟩, k2, h k2 ▸ hk2⟩).symm

/-! ### Store lemmas: pruning, dedup, put_local -/

theorem mem_pruneDominated {l : List Version} {v : Version}
    (h : v ∈ pruneDominated l) :
    v ∈ l ∧ ∀ w ∈ l, VectorClock.compare v.vc w.vc ≠ -1 := by
  unfold pruneDominated at h
  obtain ⟨hv, hp⟩ := List.mem_filter.mp h
  refine ⟨hv, fun w hw hc => ?_⟩
  have : (l.any fun w => decide (VectorClock.compare v.vc w.vc = -1)) = true :=
    List.any_eq_true.mpr ⟨w, hw, decide_eq_true hc⟩
  rw [this] at hp
  simp at hp

theorem pruneDominated_dominanceFree (l : List Version) :
    DominanceFree (pruneDominated l) := by
  intro v hv w hw
  exact (mem_pruneDominated hv).2 w (mem_pruneDominated hw).1

theorem mem_dedupeGo {l : List Version} {seen : List (String × VC)}
    {v : Version} (h : v ∈ dedupeGo l seen) : v ∈ l := by
  induction l generalizing seen with
  | nil => simp [dedupeGo] at h
  | cons x t ih =>
    rw [dedupeGo] at h
    by_cases hc : seen.contains (signature x)
    · simp only [hc, if_true] at h
      exact List.mem_cons_of_mem _ (ih h)
    · simp only [hc, if_false, Bool.false_eq_true, List.mem_cons] at h
      rcases h with h | h
      · exact h ▸ List.mem_cons_self x t
      · exact List.mem_cons_of_mem _ (ih h)

theorem mem_dedupe {l : List Version} {v : Version} (h : v ∈ dedupe l) :
    v ∈ l := mem_dedupeGo h

theorem dominanceFree_of_subset {l l' : List Version}
    (hsub : ∀ v ∈ l', v ∈ l) (h : DominanceFree l) : DominanceFree l' :=
  fun v hv w hw => h v (hsub v hv) w (hsub w hw)

theorem dedupe_dominanceFree {l : List Version} (h : DominanceFree l) :
    DominanceFree (dedupe l) :=
  dominanceFree_of_subset (fun _ hv => mem_dedupe hv) h

/-- The store component of put_local: the key is always overwritten with
the deduped pruned union of the old set and the candidate. -/
theorem put_local_fst (s : Store) (key value : String) (vc : VC) (ts : Nat) :
    (put_local s key value vc ts).1 =
      storeSet s key
        (dedupe (pruneDominated (s key ++ [Version.mk value vc ts]))) := by
  simp only [put_local]
  split
  · rfl
  · split <;> rfl

theorem merge_remote_fst (s : Store) (key : String) (remote : List Version) :
    (merge_remote_versions s key remote).1 =
      storeSet s key (dedupe (pruneDominated (s key ++ remote))) := rfl

theorem storeSet_dominanceFree {s : Store} (hs : ∀ k, DominanceFree (s k))
    {key : String} {vs : List Version} (hvs : DominanceFree vs) :
    ∀ k, DominanceFree (storeSet s key vs k) := by
  intro k
  unfold storeSet
  by_cases hk : k = key
  · simpa [hk] using hvs
  · simpa [hk] using hs k

theorem applyOp_dominanceFree {s : Store} (hs : ∀ k, DominanceFree (s k))
    {op : StoreOp} (hop : opOk op) : ∀ k, DominanceFree (applyOp s op k) := by
  cases op with
  | put key value vc ts =>
    intro k
    rw [applyOp, put_local_fst]
    exact storeSet_dominanceFree hs
      (dedupe_dominanceFree (pruneDominated_dominanceFree _)) k
  | mergeRemote key remote =>
    intro k
    rw [applyOp, merge_remote_fst]
    exact storeSet_dominanceFree hs
      (dedupe_dominanceFree (pruneDominated_dominanceFree _)) k
  | overwrite key versions =>
    intro k
    rw [applyOp]
    unfold overwrite_local_versions
    exact storeSet_dominanceFree hs hop k

theorem runOps_dominanceFree : ∀ (ops : List StoreOp) (s : Store),
    (∀ k, DominanceFree (s k)) → (∀ op ∈ ops, opOk op) →
    ∀ k, DominanceFree (runOps s ops k)
  | [], s, hs, _ => hs
  | op :: rest, s, hs, hops => by
    have h1 : runOps s (op :: rest) = runOps (applyOp s op) rest := by
      simp [runOps]
    rw [h1]
    exact runOps_dominanceFree rest (applyOp s op)
      (applyOp_dominanceFree hs (hops op (List.mem_cons_self op rest)))
      (fun o ho => hops o (List.mem_cons_of_mem _ ho))

/-! ### Canonical clock form: lookups are permutation-invariant -/

theorem lookup_perm {l1 l2 : VC} (p : l1.Perm l2)
    (nd : (l1.map Prod.fst).Nodup) (k : String) :
    l1.lookup k = l2.lookup k := by
  induction p with
  | nil => rfl
  | cons x pt ih =>
    rw [List.lookup, List.lookup]
    cases hk : (k == x.1) with
    | true => rfl
    | false =>
      simp only [List.map, List.nodup_cons] at nd
      exact ih nd.2
  | swap x y l =>
    simp only [List.map, List.nodup_cons, List.mem_cons] at nd
    have hxy : y.1 ≠ x.1 := fun h => nd.1 (Or.inl h)
    rw [List.lookup, List.lookup, List.lookup, List.lookup]
    cases hk1 : (k == y.1) with
    | true =>
      have : (k == x.1) = false := by
        have hk : k = y.1 := eq_of_beq hk1
        exact beq_eq_false_iff_ne.mpr (hk ▸ hxy)
      rw [this]
    | false =>
      cases hk2 : (k == x.1) <;> rfl
  | trans p1 p2 ih1 ih2 =>
    have nd2 := ((p1.map Prod.fst).nodup_iff).mp nd
    exact (ih1 nd).trans (ih2 nd2)

theorem vcGet_sortPairs {l : VC} (nd : (l.map Prod.fst).Nodup) (k : String) :
    vcGet (sortPairs l) k = vcGet l k := by
  unfold vcGet
  have hp : (sortPairs l).Perm l := List.perm_insertionSort pairLE l
  have nds : ((sortPairs l).map Prod.fst).Nodup :=
    ((hp.map Prod.fst).nodup_iff).mpr nd
  rw [lookup_perm hp nds k]

/-- Equal signatures of clocks with duplicate-free key sets force equal
coordinates everywhere. -/
theorem vcGet_eq_of_sortPairs_eq {a b : VC}
    (nda : (a.map Prod.fst).Nodup) (ndb : (b.map Prod.fst).Nodup)
    (h : sortPairs a = sortPairs b) (k : String) : vcGet a k = vcGet b k := by
  rw [← vcGet_sortPairs nda k, h, vcGet_sortPairs ndb k]

/-! ### Dedup is the identity on signature-distinct lists -/

theorem dedupeGo_eq_self : ∀ {l : List Version} {seen : List (String × VC)},
    (l.map signature).Nodup →
    (∀ v ∈ l, seen.contains (signature v) = false) →
    dedupeGo l seen = l
  | [], _, _, _ => rfl
  | v :: t, seen, nd, hseen => by
    rw [dedupeGo]
    simp only [List.map, List.nodup_cons] at nd
    have h1 : seen.contains (signature v) = false :=
      hseen v (List.mem_cons_self v t)
    rw [h1]
    simp only [Bool.false_eq_true, if_false]
    congr 1
    refine dedupeGo_eq_self nd.2 fun u hu => ?_
    have hne : (signature u == signature v) = false := by
      refine beq_eq_false_iff_ne.mpr fun he => ?_
      exact nd.1 (he ▸ List.mem_map_of_mem signature hu)
    rw [List.contains_cons, hne, hseen u (List.mem_cons_of_mem _ hu)]
    rfl

theorem dedupe_eq_self {l : List Version} (nd : (l.map signature).Nodup) :
    dedupe l = l :=
  dedupeGo_eq_self nd (fun _ _ => rfl)

/-! ### C3: put_local on a dominated candidate -/

/-- C3 (amended): when the candidate of put_local is strictly dominated by
some stored version, the stored set is unchanged and the call returns the
last element of the (unchanged) stored list: a stored, non-dominated
version, but not necessarily one that dominates the candidate.  The
hypotheses state that the stored set is well formed (dominance-free,
signature-distinct, clocks without duplicate keys), which holds for every
set the engine itself stores. -/
theorem C3_put_dominated (s : Store) (key value : String) (vc : VC) (ts : Nat)
    (hdf : DominanceFree (s key))
    (hsig : ((s key).map signature).Nodup)
    (hkeys : ∀ v ∈ s key, (v.vc.map Prod.fst).Nodup)
    (hcand : (vc.map Prod.fst).Nodup)
    (hdom : ∃ w ∈ s key, VectorClock.compare vc w.vc = -1) :
    (∀ k', (put_local s key value vc ts).1 k' = s k')
    ∧ (put_local s key value vc ts).2 =
        (s key).getLastD (Version.mk value vc ts)
    ∧ (put_local s key value vc ts).2 ∈ s key := by
  obtain ⟨w0, hw0, hcw0⟩ := hdom
  set cand : Version := Version.mk value vc ts with hcanddef
  -- every already-stored version survives the pruning pass
  have hkeepP : ∀ v ∈ s key,
      (!((s key ++ [cand]).any fun w =>
        decide (VectorClock.compare v.vc w.vc = -1))) = true := by
    intro v hv
    rw [Bool.not_eq_true']
    rw [List.any_eq_false]
    intro w hw
    rcases List.mem_append.mp hw with hw' | hw'
    · simp only [decide_eq_true_eq]
      exact hdf v hv w hw'
    · have hwc : w = cand := by simpa using hw'
      subst hwc
      simp only [decide_eq_true_eq]
      intro hvc
      exact hdf v hv w0 hw0 (compare_lt_trans hvc hcw0)
  -- the candidate itself is pruned
  have hcandP : (!((s key ++ [cand]).any fun w =>
      decide (VectorClock.compare cand.vc w.vc = -1))) = false := by
    have h1 : ((s key ++ [cand]).any fun w =>
        decide (VectorClock.compare cand.vc w.vc = -1)) = true :=
      List.any_eq_true.mpr
        ⟨w0, List.mem_append_left _ hw0, decide_eq_true hcw0⟩
    rw [h1]
    rfl
  have hkeep : pruneDominated (s key ++ [cand]) = s key := by
    unfold pruneDominated
    rw [List.filter_append]
    rw [List.filter_eq_self.mpr hkeepP]
    have h2 : List.filter (fun v => !((s key ++ [cand]).any fun w =>
        decide (VectorClock.compare v.vc w.vc = -1))) [cand] = [] := by
      rw [List.filter_cons, hcandP]
      simp
    rw [h2, List.append_nil]
  have hunited : dedupe (pruneDominated (s key ++ [cand])) = s key := by
    rw [hkeep, dedupe_eq_self hsig]
  -- no stored version shares the candidate's signature
  have hfind : (s key).find?
      (fun v => decide (signature v = signature cand)) = none := by
    rw [List.find?_eq_none]
    intro v hv
    simp only [decide_eq_true_eq]
    intro he
    have hvv : sortPairs v.vc = sortPairs vc := congrArg Prod.snd he
    have hext : ∀ k, vcGet v.vc k = vcGet vc k :=
      vcGet_eq_of_sortPairs_eq (hkeys v hv) hcand hvv
    have : VectorClock.compare v.vc w0.vc = -1 := by
      rw [compare_ext_left w0.vc hext]
      exact hcw0
    exact hdf v hv w0 hw0 this
  have hne : s key ≠ [] := List.ne_nil_of_mem hw0
  have hlast : (s key).getLast? = some ((s key).getLastD cand) := by
    cases hl : (s key).getLast? with
    | none => exact absurd (List.getLast?_eq_none_iff.mp hl) hne
    | some v => rw [List.getLastD_eq_getLast?, hl]; rfl
  have heval : put_local s key value vc ts =
      (storeSet s key (s key), (s key).getLastD cand) := by
    simp only [put_local, ← hcanddef, hunited, hfind, hlast]
  refine ⟨?_, ?_, ?_⟩
  · intro k'
    rw [heval]
    unfold storeSet
    by_cases hk : k' = key <;> simp [hk]
  · rw [heval]
  · rw [heval]
    exact List.mem_of_mem_getLast? hlast

/-- C3 witness store: a single stored version with clock A:2. -/
def c3WitnessStore : Store := (put_local emptyStore "k" "a" [("A", 2)] 0).1

/-- C3 witness: with one stored version a/(A:2) and a dominated candidate
c/(A:1), the set is unchanged and a/(A:2) is returned. -/
theorem C3_put_dominated_witness :
    (DominanceFree (c3WitnessStore "k")
      ∧ ((c3WitnessStore "k").map signature).Nodup
      ∧ (∀ v ∈ c3WitnessStore "k", (v.vc.map Prod.fst).Nodup)
      ∧ (([("A", 1)] : VC).map Prod.fst).Nodup
      ∧ ∃ w ∈ c3WitnessStore "k", VectorClock.compare [("A", 1)] w.vc = -1)
    ∧ ((∀ k', (put_local c3WitnessStore "k" "c" [("A", 1)] 2).1 k'
          = c3WitnessStore k')
       ∧ (put_local c3WitnessStore "k" "c" [("A", 1)] 2).2 =
           (c3WitnessStore "k").getLastD (Version.mk "c" [("A", 1)] 2)
       ∧ (put_local c3WitnessStore "k" "c" [("A", 1)] 2).2 ∈
           c3WitnessStore "k") :=
  ⟨⟨by decide, by decide, by decide, by decide, by decide⟩,
   C3_put_dominated c3WitnessStore "k" "c" [("A", 1)] 2
     (by decide) (by decide) (by decide) (by decide) (by decide)⟩

/-- C3 counterexample store: two concurrent stored versions a/(A:2) and
b/(B:1), built by two put_local calls. -/
def c3CexStore : Store :=
  (put_local (put_local emptyStore "k" "a" [("A", 2)] 0).1
    "k" "b" [("B", 1)] 1).1

/-- C3 counterexample: the candidate c/(A:1) is strictly dominated by the
stored version a/(A:2), yet put_local returns b/(B:1), which does not
dominate the candidate (their clocks are concurrent); so the claim that
the dominating version is returned is false. -/
theorem C3_counterexample :
    c3CexStore "k" =
      [Version.mk "a" [("A", 2)] 0, Version.mk "b" [("B", 1)] 1]
    ∧ VectorClock.compare [("A", 1)]
        (Version.mk "a" [("A", 2)] 0).vc = -1
    ∧ (put_local c3CexStore "k" "c" [("A", 1)] 2).2 =
        Version.mk "b" [("B", 1)] 1
    ∧ VectorClock.compare [("A", 1)]
        (put_local c3CexStore "k" "c" [("A", 1)] 2).2.vc = 2 := by
  refine ⟨?_, by decide, by decide, by decide⟩
  show c3CexStore "k" = _
  decide

/-! ### C2: the store dominance invariant -/

/-- C2 (amended): starting from the empty store, after any finite sequence
of put_local, merge_remote_versions and overwrite_local_versions calls in
which every overwrite_local_versions call is given a dominance-free list
(dominance is the caller's responsibility for that operation), no stored
version of any key is strictly dominated by another stored version of the
same key.  Without the restriction on overwrite the claim is false, see
the counterexample. -/
theorem C2_store_dominance_invariant (ops : List StoreOp)
    (hops : ∀ op ∈ ops, opOk op) (k : String) :
    DominanceFree (runOps emptyStore ops k) :=
  runOps_dominanceFree ops emptyStore
    (fun _ v hv => absurd hv (List.not_mem_nil v)) hops k

/-- C2 witness: a concrete put / dominance-free overwrite sequence keeps
the key's set dominance-free. -/
theorem C2_store_dominance_invariant_witness :
    (∀ op ∈ [StoreOp.put "k" "a" [("A", 1)] 0,
             StoreOp.overwrite "k" [Version.mk "b" [("B", 1)] 1]], opOk op)
    ∧ DominanceFree (runOps emptyStore
        [StoreOp.put "k" "a" [("A", 1)] 0,
         StoreOp.overwrite "k" [Version.mk "b" [("B", 1)] 1]] "k") :=
  ⟨by decide, C2_store_dominance_invariant _ (by decide) "k"⟩

/-- C2 counterexample: a single overwrite_local_versions call with a list
containing a dominated version leaves two stored versions v, w with
compare(v.vc, w.vc) = LESS, so the claim is false for unrestricted
overwrite calls. -/
theorem C2_counterexample :
    Version.mk "a" [("A", 1)] 0 ∈
      runOps emptyStore
        [StoreOp.overwrite "k"
          [Version.mk "a" [("A", 1)] 0, Version.mk "b" [("A", 2)] 1]] "k"
    ∧ Version.mk "b" [("A", 2)] 1 ∈
      runOps emptyStore
        [StoreOp.overwrite "k"
          [Version.mk "a" [("A", 1)] 0, Version.mk "b" [("A", 2)] 1]] "k"
    ∧ VectorClock.compare (Version.mk "a" [("A", 1)] 0).vc
        (Version.mk "b" [("A", 2)] 1).vc = -1 := by
  decide

/-! ### C5 / C10: quorum_write semantics -/

/-- C5: quorum_write always performs the local put_local (the store effect
equals a put_local and does not depend on the replicate RPC outcomes),
replicate RPCs target exactly the candidates other than the coordinator,
and the returned success bit is true exactly when the number of successful
replies, counting the coordinator's local write as one, reaches W. -/
theorem C5_quorum_write_semantics (s : Store) (key value : String)
    (candidates : List String) (W : Nat) (local_node_id : String)
    (pvc : Option VC) (ts : Nat) (rpcOk rpcOk' : String → Bool) :
    ((quorum_write s key value candidates W local_node_id pvc ts rpcOk).1 =
      (put_local s key value
        (vcIncrement (pvc.getD []) local_node_id) ts).1)
    ∧ ((quorum_write s key value candidates W local_node_id pvc ts rpcOk).1 =
       (quorum_write s key value candidates W local_node_id pvc ts rpcOk').1)
    ∧ (∀ n, n ∈ rpcTargets candidates local_node_id ↔
        (n ∈ candidates ∧ n ≠ local_node_id))
    ∧ ((quorum_write s key value candidates W local_node_id pvc ts
          rpcOk).2.success = true ↔
        W ≤ ((rpcTargets candidates local_node_id).filter rpcOk).length + 1) := by
  refine ⟨?_, ?_, ?_, ?_⟩
  · cases pvc <;> rfl
  · rfl
  · intro n
    unfold rpcTargets
    rw [List.mem_filter]
    constructor
    · rintro ⟨h1, h2⟩; exact ⟨h1, by simpa using h2⟩
    · rintro ⟨h1, h2⟩; exact ⟨h1, by simpa using h2⟩
  · show (decide _) = true ↔ _
    rw [decide_eq_true_iff]
    rw [List.length_append, List.length_cons, List.length_nil]

/-- C10: the coordinator id is always appended to the succeeded list, even
when it is not one of the candidates; in that case the replicate fan-out
goes to all N candidates and the write is reported successful as soon as
W - 1 of those candidate RPCs succeed. -/
theorem C10_quorum_write_self_count (s : Store) (key value : String)
    (candidates : List String) (W : Nat) (local_node_id : String)
    (pvc : Option VC) (ts : Nat) (rpcOk : String → Bool) :
    local_node_id ∈
      (quorum_write s key value candidates W local_node_id pvc ts
        rpcOk).2.succeeded
    ∧ (local_node_id ∉ candidates →
        rpcTargets candidates local_node_id = candidates
        ∧ ((quorum_write s key value candidates W local_node_id pvc ts
              rpcOk).2.success = true ↔
            W - 1 ≤ (candidates.filter rpcOk).length)) := by
  constructor
  · show local_node_id ∈ _ ++ [local_node_id]
    exact List.mem_append_right _ (List.mem_singleton.mpr rfl)
  · intro hnot
    have htar : rpcTargets candidates local_node_id = candidates := by
      unfold rpcTargets
      refine List.filter_eq_self.mpr fun n hn => ?_
      have : n ≠ local_node_id := fun he => hnot (he ▸ hn)
      simpa using this
    refine ⟨htar, ?_⟩
    show (decide _) = true ↔ _
    rw [decide_eq_true_iff, htar]
    rw [List.length_append, List.length_cons, List.length_nil]
    omega

/-- C10 witness: coordinator A outside the candidate list [B, C], W = 2;
one successful candidate RPC (to B) already yields success = true, with A
itself reported in the succeeded list. -/
theorem C10_quorum_write_self_count_witness :
    ("A" ∈ (quorum_write emptyStore "k" "v" ["B", "C"] 2 "A" none 0
        (fun n => n == "B")).2.succeeded)
    ∧ rpcTargets ["B", "C"] "A" = ["B", "C"]
    ∧ ((quorum_write emptyStore "k" "v" ["B", "C"] 2 "A" none 0
          (fun n => n == "B")).2.success = true ↔
        2 - 1 ≤ ((["B", "C"] : List String).filter (fun n => n == "B")).length) := by
  have h := C10_quorum_write_self_count emptyStore "k" "v" ["B", "C"] 2 "A"
    none 0 (fun n => n == "B")
  have h2 := h.2 (by decide)
  exact ⟨h.1, h2.1, h2.2⟩

/-! ### C1: response counting in quorum_read -/

/-- C1 evaluated at the failing input: candidates n1 and n2 with R = 2,
where the get_local RPC to n1 returns 200 with an empty list and the RPC
to n2 fails.  Only one candidate actually responded, yet quorum_read
reports ok (no 503) and lists both candidates as responders, because
_rpc_get_local maps every failure to an empty list and the "vers is not
None" filter in quorum_read therefore never excludes anything. -/
theorem C1_code_eval :
    ((quorum_read emptyStore "k" ["n1", "n2"] 2
        (fun n => if n = "n1" then some [] else none)).2.ok = true)
    ∧ ((quorum_read emptyStore "k" ["n1", "n2"] 2
        (fun n => if n = "n1" then some [] else none)).2.responders
        = ["n1", "n2"])
    ∧ ((["n1", "n2"] : List String).filter
        (fun n => ((fun n => if n = "n1" then some ([] : List Version)
                    else none) n).isSome)).length = 1
    ∧ 1 < 2 := by
  refine ⟨by decide, by decide, by decide, by decide⟩

/-! ### C4: the vector clock stored by a client PUT -/

/-- C4 evaluated at the failing input: a PUT of a fresh key x at
coordinator A (three candidates all answering the parent read with empty
version lists, R = W = 2, all replicate RPCs succeeding).  The claim and
the spec scenario expect the stored clock A:1; the code stores A:2 because
put_handler increments the merged parent clock once and quorum_write
increments it again. -/
theorem C4_code_eval :
    ((put_handler emptyStore "A" "x" "v1" ["A", "B", "C"] 2 2
        (fun _ => some []) (fun _ => true) 0).2.used_vc = [("A", 2)])
    ∧ ((put_handler emptyStore "A" "x" "v1" ["A", "B", "C"] 2 2
        (fun _ => some []) (fun _ => true) 0).2.used_vc ≠ [("A", 1)])
    ∧ vcGet ((put_handler emptyStore "A" "x" "v1" ["A", "B", "C"] 2 2
        (fun _ => some []) (fun _ => true) 0).2.used_vc) "A" = 2 := by
  refine ⟨by decide, by decide, by decide⟩

/-! ### C6: the compare relation -/

/-- C6: over the union of their keys with missing keys read as zero (hence
over every key), compare returns LESS iff every coordinate of a is at most
that of b and at least one is strictly below, GREATER symmetrically, EQUAL
iff all coordinates agree, and CONCURRENT exactly when each clock exceeds
the other somewhere. -/
theorem C6_compare_characterisation (a b : VC) :
    (VectorClock.compare a b = -1 ↔
      ((∀ k, vcGet a k ≤ vcGet b k) ∧ ∃ k, vcGet a k < vcGet b k))
    ∧ (VectorClock.compare a b = 1 ↔
      ((∀ k, vcGet b k ≤ vcGet a k) ∧ ∃ k, vcGet b k < vcGet a k))
    ∧ (VectorClock.compare a b = 0 ↔ (∀ k, vcGet a k = vcGet b k))
    ∧ (VectorClock.compare a b = 2 ↔
      ((∃ k, vcGet a k < vcGet b k) ∧ ∃ k, vcGet b k < vcGet a k)) :=
  ⟨compare_neg_one_iff a b, compare_one_iff a b, compare_zero_iff a b,
   compare_two_iff a b⟩

/-! ### C9: the gossip merge rule -/

theorem lookup_setEntry_self : ∀ (t : MemberTable) (k : String)
    (e : MemberEntry), (setEntry t k e).lookup k = some e
  | [], k, e => by simp [setEntry, List.lookup]
  | (k', e') :: rest, k, e => by
    rw [setEntry]
    by_cases h : k' = k
    · simp [h, List.lookup]
    · rw [if_neg h, List.lookup]
      have hb : (k == k') = false := beq_eq_false_iff_ne.mpr fun he => h he.symm
      rw [hb]
      exact lookup_setEntry_self rest k e

theorem lookup_setEntry_ne : ∀ (t : MemberTable) (k k' : String)
    (e : MemberEntry), k' ≠ k → (setEntry t k e).lookup k' = t.lookup k'
  | [], k, k', e, h => by
    simp only [setEntry, List.lookup]
    rw [beq_eq_false_iff_ne.mpr h]
  | (k0, e0) :: rest, k, k', e, h => by
    rw [setEntry]
    by_cases h0 : k0 = k
    · rw [if_pos h0, List.lookup, List.lookup,
        beq_eq_false_iff_ne.mpr h, beq_eq_false_iff_ne.mpr (h0 ▸ h)]
    · rw [if_neg h0, List.lookup, List.lookup]
      cases hk : (k' == k0) with
      | true => rfl
      | false => exact lookup_setEntry_ne rest k k' e h

theorem lookup_append_single : ∀ (t : MemberTable) (k k0 : String)
    (e : MemberEntry),
    (t ++ [(k0, e)]).lookup k =
      match t.lookup k with
      | some v => some v
      | none => if k == k0 then some e else none
  | [], k, k0, e => by
    simp only [List.nil_append, List.lookup]
    cases hk : (k == k0) <;> rfl
  | (k1, e1) :: rest, k, k0, e => by
    rw [List.cons_append, List.lookup, List.lookup]
    cases hk : (k == k1) with
    | true => rfl
    | false => exact lookup_append_single rest k k0 e

theorem mergeEntryStep_lookup_ne (acc : MemberTable)
    (p : String × MemberEntry) (node : String) (h : node ≠ p.1) :
    (mergeEntryStep acc p).lookup node = acc.lookup node := by
  unfold mergeEntryStep
  cases hl : acc.lookup p.1 with
  | none =>
    dsimp only
    rw [lookup_append_single, beq_eq_false_iff_ne.mpr h]
    cases acc.lookup node <;> rfl
  | some ld =>
    dsimp only
    by_cases h1 : ld.incarnation < p.2.incarnation
    · rw [if_pos h1]; exact lookup_setEntry_ne acc p.1 node p.2 h
    · rw [if_neg h1]
      by_cases h2 : p.2.incarnation = ld.incarnation
      · rw [if_pos h2]
        by_cases h3 : ld.timestamp < p.2.timestamp
        · rw [if_pos h3]; exact lookup_setEntry_ne acc p.1 node p.2 h
        · rw [if_neg h3]
      · rw [if_neg h2]

theorem mergeEntryStep_lookup_self (acc : MemberTable)
    (p : String × MemberEntry) :
    (mergeEntryStep acc p).lookup p.1 =
      match acc.lookup p.1 with
      | none => some p.2
      | some ld =>
        some (if ld.incarnation < p.2.incarnation ∨
                (p.2.incarnation = ld.incarnation ∧
                  ld.timestamp < p.2.timestamp)
              then p.2 else ld) := by
  unfold mergeEntryStep
  cases hl : acc.lookup p.1 with
  | none =>
    dsimp only
    rw [lookup_append_single, hl, beq_self_eq_true]
    rfl
  | some ld =>
    dsimp only
    by_cases h1 : ld.incarnation < p.2.incarnation
    · rw [if_pos h1, lookup_setEntry_self]
      rw [if_pos (Or.inl h1)]
    · rw [if_neg h1]
      by_cases h2 : p.2.incarnation = ld.incarnation
      · rw [if_pos h2]
        by_cases h3 : ld.timestamp < p.2.timestamp
        · rw [if_pos h3, lookup_setEntry_self, if_pos (Or.inr ⟨h2, h3⟩)]
        · rw [if_neg h3, hl, if_neg ?hne]
          case hne => rintro (hc | ⟨-, hc⟩) <;> omega
      · rw [if_neg h2, hl, if_neg ?hne2]
        case hne2 => rintro (hc | ⟨hc, -⟩) <;> omega

theorem membershipMerge_lookup_not_mem :
    ∀ (remote : MemberTable) (acc : MemberTable) (node : String),
    node ∉ remote.map Prod.fst →
    (membershipMerge acc remote).lookup node = acc.lookup node
  | [], acc, node, _ => rfl
  | p :: rest, acc, node, h => by
    have h1 : node ≠ p.1 := fun he => h (by simp [he])
    have h2 : node ∉ rest.map Prod.fst := fun he => h (by simp [he])
    have hstep : membershipMerge acc (p :: rest) =
        membershipMerge (mergeEntryStep acc p) rest := rfl
    rw [hstep, membershipMerge_lookup_not_mem rest (mergeEntryStep acc p) node h2]
    exact mergeEntryStep_lookup_ne acc p node h1

theorem membershipMerge_lookup : ∀ (remote : MemberTable) (lcl : MemberTable),
    (remote.map Prod.fst).Nodup → ∀ (node : String),
    (membershipMerge lcl remote).lookup node =
      match lcl.lookup node, remote.lookup node with
      | none, none => none
      | some ld, none => some ld
      | none, some rd => some rd
      | some ld, some rd =>
        some (if ld.incarnation < rd.incarnation ∨
                (rd.incarnation = ld.incarnation ∧
                  ld.timestamp < rd.timestamp) then rd else ld)
  | [], lcl, _, node => by
    show lcl.lookup node = _
    cases lcl.lookup node <;> rfl
  | p :: rest, lcl, hnd, node => by
    obtain ⟨pk, pe⟩ := p
    simp only [List.map, List.nodup_cons] at hnd
    have hstep : membershipMerge lcl ((pk, pe) :: rest) =
        membershipMerge (mergeEntryStep lcl (pk, pe)) rest := rfl
    rw [hstep]
    by_cases hn : node = pk
    · subst hn
      rw [membershipMerge_lookup_not_mem rest _ node hnd.1]
      have hself := mergeEntryStep_lookup_self lcl (node, pe)
      dsimp only at hself
      rw [hself]
      have hr : ((node, pe) :: rest).lookup node = some pe := by
        rw [List.lookup, beq_self_eq_true]
      rw [hr]
      cases lcl.lookup node <;> rfl
    · rw [membershipMerge_lookup rest (mergeEntryStep lcl (pk, pe)) hnd.2 node]
      have hne := mergeEntryStep_lookup_ne lcl (pk, pe) node hn
      rw [hne]
      have hr : ((pk, pe) :: rest).lookup node = rest.lookup node := by
        rw [List.lookup, beq_eq_false_iff_ne.mpr hn]
      rw [hr]

/-- C9: for every entry of the received gossip table, an unknown node is
adopted; a known node's record is replaced by the remote record exactly
when the remote incarnation is strictly higher or the incarnations are
equal and the remote timestamp is strictly newer; otherwise the local
record is kept.  Stated for received tables without duplicate node keys
(Python dicts cannot carry duplicates). -/
theorem C9_gossip_merge_rule (lcl remote : MemberTable)
    (hnd : (remote.map Prod.fst).Nodup) (node : String)
    (rd : MemberEntry) (hr : remote.lookup node = some rd) :
    (lcl.lookup node = none →
      (membershipMerge lcl remote).lookup node = some rd)
    ∧ (∀ ld, lcl.lookup node = some ld →
        (membershipMerge lcl remote).lookup node =
          some (if ld.incarnation < rd.incarnation ∨
                  (rd.incarnation = ld.incarnation ∧
                    ld.timestamp < rd.timestamp) then rd else ld)) := by
  constructor
  · intro hl
    rw [membershipMerge_lookup remote lcl hnd node, hl, hr]
  · intro ld hl
    rw [membershipMerge_lookup remote lcl hnd node, hl, hr]

/-- C9 witness: the merge of concrete tables follows the rule: node a is
kept locally (equal incarnation, remote timestamp newer wins there:
remote ts 7 beats local ts 5), node b is adopted. -/
theorem C9_gossip_merge_rule_witness :
    ((membershipMerge
        [("a", MemberEntry.mk "alive" 1 5)]
        [("a", MemberEntry.mk "dead" 1 7), ("b", MemberEntry.mk "alive" 2 3)]
      ).lookup "a" = some (MemberEntry.mk "dead" 1 7))
    ∧ ((membershipMerge
        [("a", MemberEntry.mk "alive" 1 5)]
        [("a", MemberEntry.mk "dead" 1 7), ("b", MemberEntry.mk "alive" 2 3)]
      ).lookup "b" = some (MemberEntry.mk "alive" 2 3)) := by
  constructor
  · have h := (C9_gossip_merge_rule
      [("a", MemberEntry.mk "alive" 1 5)]
      [("a", MemberEntry.mk "dead" 1 7), ("b", MemberEntry.mk "alive" 2 3)]
      (by decide) "a" (MemberEntry.mk "dead" 1 7) (by decide)).2
      (MemberEntry.mk "alive" 1 5) (by decide)
    rw [h]
    decide
  · have h := (C9_gossip_merge_rule
      [("a", MemberEntry.mk "alive" 1 5)]
      [("a", MemberEntry.mk "dead" 1 7), ("b", MemberEntry.mk "alive" 2 3)]
      (by decide) "b" (MemberEntry.mk "alive" 2 3) (by decide)).1 (by decide)
    rw [h]

/-! ### Ring walk: loop / specification-collector equivalence -/

theorem contains_append_str (x : String) (l1 l2 : List String) :
    (l1 ++ l2).contains x = (l1.contains x || l2.contains x) := by
  induction l1 with
  | nil => simp
  | cons a t ih =>
    show (x == a || (t ++ l2).contains x) = ((x == a || t.contains x) || _)
    rw [ih, Bool.or_assoc]

theorem foldl_step_full (alive : Option (List String)) (N : Nat) :
    ∀ (ids : List String) (res : List String), N ≤ res.length →
      ids.foldl (stepCollect alive N) res = res
  | [], res, _ => rfl
  | x :: t, res, h => by
    rw [List.foldl_cons]
    have hstep : stepCollect alive N res x = res := by
      unfold stepCollect
      have : decide (res.length < N) = false := by
        simp only [decide_eq_false_iff_not]
        omega
      simp [this]
    rw [hstep]
    exact foldl_step_full alive N t res h

theorem walkRing_eq_foldl (nodeOf : Nat → String)
    (alive : Option (List String)) (N : Nat) :
    ∀ (l : List Nat) (res seen : List String),
      (∀ x, seen.contains x = res.contains x) →
      walkRing nodeOf alive N l res seen =
        (l.map nodeOf).foldl (stepCollect alive N) res
  | [], res, seen, _ => rfl
  | pos :: rest, res, seen, hseen => by
    rw [walkRing, List.map_cons, List.foldl_cons]
    dsimp only
    by_cases hlen : res.length < N
    · rw [if_pos hlen]
      cases hdup : seen.contains (nodeOf pos) with
      | true =>
        have hres : res.contains (nodeOf pos) = true := by
          rw [← hseen]; exact hdup
        have hstep : stepCollect alive N res (nodeOf pos) = res := by
          unfold stepCollect
          rw [hres]
          simp
        rw [if_pos rfl, hstep]
        exact walkRing_eq_foldl nodeOf alive N rest res seen hseen
      | false =>
        have hres : res.contains (nodeOf pos) = false := by
          rw [← hseen]; exact hdup
        rw [if_neg Bool.false_ne_true]
        cases halive : (match alive with
            | some a => !(a.contains (nodeOf pos))
            | none => false) with
        | true =>
          obtain ⟨a, ha⟩ : ∃ a, alive = some a := by
            cases alive with
            | none => simp at halive
            | some a => exact ⟨a, rfl⟩
          subst ha
          have hac : a.contains (nodeOf pos) = false := by
            simpa using halive
          have hstep : stepCollect (some a) N res (nodeOf pos) = res := by
            unfold stepCollect
            dsimp only
            rw [hac]
            simp
          rw [if_pos rfl, hstep]
          exact walkRing_eq_foldl nodeOf (some a) N rest res seen hseen
        | false =>
          have hstep : stepCollect alive N res (nodeOf pos) =
              res ++ [nodeOf pos] := by
            unfold stepCollect
            cases alive with
            | none =>
              rw [hres]
              simp [hlen]
            | some a =>
              have hac : a.contains (nodeOf pos) = true := by
                simpa using halive
              dsimp only
              rw [hres, hac]
              simp [hlen]
          rw [if_neg Bool.false_ne_true, hstep]
          refine walkRing_eq_foldl nodeOf alive N rest (res ++ [nodeOf pos])
            (nodeOf pos :: seen) fun x => ?_
          show (x == nodeOf pos || seen.contains x) = _
          rw [contains_append_str, hseen x]
          show _ = (res.contains x || (x == nodeOf pos || false))
          rw [Bool.or_false, Bool.or_comm]
    · rw [if_neg hlen]
      have hN : N ≤ res.length := by omega
      have hstep : stepCollect alive N res (nodeOf pos) = res := by
        unfold stepCollect
        have hd : decide (res.length < N) = false := by
          simp only [decide_eq_false_iff_not]
          omega
        rw [hd]
        simp
      rw [hstep]
      exact (foldl_step_full alive N _ res hN).symm

theorem sortedLeB_pairwise : ∀ {l : List Nat}, sortedLeB l = true →
    l.Pairwise (· ≤ ·)
  | [], _ => List.Pairwise.nil
  | [x], _ => by simp
  | x :: y :: t, h => by
    simp only [sortedLeB, Bool.and_eq_true, decide_eq_true_eq] at h
    have ih := sortedLeB_pairwise (l := y :: t) h.2
    refine List.Pairwise.cons ?_ ih
    intro b hb
    rcases List.mem_cons.mp hb with hb | hb
    · exact hb ▸ h.1
    · exact le_trans h.1 (List.rel_of_pairwise_cons ih hb)

theorem bisectRight_eq_findIdx : ∀ (l : List Nat) (x : Nat),
    l.Pairwise (· ≤ ·) →
    bisectRight l x = l.findIdx fun p => decide (x < p)
  | [], x, _ => rfl
  | a :: t, x, hp => by
    rw [List.pairwise_cons] at hp
    unfold bisectRight
    by_cases hax : a ≤ x
    · rw [List.countP_cons_of_pos _ _ (by simpa using hax)]
      rw [List.findIdx_cons]
      have : (decide (x < a)) = false := by simpa using by omega
      rw [this]
      simp only [cond_false]
      have ih := bisectRight_eq_findIdx t x hp.2
      unfold bisectRight at ih
      omega
    · have hxa : x < a := by omega
      rw [List.findIdx_cons]
      have hd : (decide (x < a)) = true := decide_eq_true hxa
      rw [hd]
      simp only [cond_true]
      rw [List.countP_cons_of_neg _ _ (by simpa using hax)]
      rw [List.countP_eq_zero.mpr]
      intro b hb
      have hab := hp.1 b hb
      simpa using by omega

/-! ### C7: where the clockwise walk starts -/

/-- C7 counterexample: on the concrete two-node ring ringToy built through
the constructor from hToy, the key "K" hashes to exactly the ring position
10 of vnode n1#0; the code walks from the first position strictly greater
than 10 and returns [n2, n1], while the spec reading (first position
greater than or equal to hash(key)) would return [n1, n2]. -/
theorem C7_counterexample :
    hToy "K" ∈ ringToy.ring
    ∧ ringToy.get_replicas hToy "K" 2 none = ["n2", "n1"]
    ∧ getReplicasSpecGE ringToy hToy "K" 2 none = ["n1", "n2"]
    ∧ ringToy.get_replicas hToy "K" 2 none ≠
        getReplicasSpecGE ringToy hToy "K" 2 none := by
  refine ⟨by decide, by decide, by decide, by decide⟩

/-- C7 (amended): on a sorted ring, get_replicas begins its clockwise walk
at the first ring position strictly greater than hash(key) (wrapping past
the largest position) and collects distinct physical node ids from there,
skipping ids outside the alive set when one is supplied: it coincides with
the specification-level collector getReplicasSpecGT. -/
theorem C7_get_replicas_walk (r : HashRing) (h : String → Nat) (key : String)
    (N : Nat) (alive : Option (List String))
    (hs : sortedLeB r.ring = true) :
    r.get_replicas h key N alive = getReplicasSpecGT r h key N alive := by
  unfold HashRing.get_replicas getReplicasSpecGT
  by_cases he : r.ring.isEmpty
  · rw [if_pos he, if_pos he]
  · rw [if_neg he, if_neg he]
    dsimp only
    rw [bisectRight_eq_findIdx _ _ (sortedLeB_pairwise hs)]
    rw [walkRing_eq_foldl r.nodeAt alive N _ [] [] (fun _ => rfl)]
    rfl

/-- C7 witness: the equivalence applied to the concrete ring ringToy. -/
theorem C7_get_replicas_walk_witness :
    sortedLeB ringToy.ring = true
    ∧ ringToy.get_replicas hToy "K" 2 (some ["n1", "n2"]) =
        getReplicasSpecGT ringToy hToy "K" 2 (some ["n1", "n2"]) :=
  ⟨by decide,
   C7_get_replicas_walk ringToy hToy "K" 2 (some ["n1", "n2"]) (by decide)⟩

/-! ### C8: ring coverage -/

theorem collect_spec (N : Nat) : ∀ (ids : List String) (res : List String),
    res.Nodup → res.length ≤ N →
    ((ids.foldl (stepCollect none N) res).Nodup
    ∧ (ids.foldl (stepCollect none N) res).length ≤ N
    ∧ (∀ x ∈ ids.foldl (stepCollect none N) res, x ∈ res ∨ x ∈ ids)
    ∧ (∀ x ∈ res, x ∈ ids.foldl (stepCollect none N) res)
    ∧ ((ids.foldl (stepCollect none N) res).length = N ∨
        ∀ x ∈ ids, x ∈ ids.foldl (stepCollect none N) res))
  | [], res, hnd, hle =>
    ⟨hnd, hle, fun x hx => Or.inl hx, fun _ hx => hx,
     Or.inr fun x hx => absurd hx (List.not_mem_nil x)⟩
  | id0 :: t, res, hnd, hle => by
    rw [List.foldl_cons]
    by_cases hfull : res.length < N
    · by_cases hmem : id0 ∈ res
      · have hstep : stepCollect none N res id0 = res := by
          unfold stepCollect
          have hc : res.contains id0 = true := by simpa using hmem
          dsimp only
          rw [hc]
          simp
        rw [hstep]
        obtain ⟨a1, a2, a3, a4, a5⟩ := collect_spec N t res hnd hle
        refine ⟨a1, a2, fun x hx => (a3 x hx).elim Or.inl
          (fun hx2 => Or.inr (List.mem_cons_of_mem _ hx2)), a4, ?_⟩
        rcases a5 with a5 | a5
        · exact Or.inl a5
        · refine Or.inr fun x hx => ?_
          rcases List.mem_cons.mp hx with hx | hx
          · exact hx ▸ a4 id0 hmem
          · exact a5 x hx
      · have hstep : stepCollect none N res id0 = res ++ [id0] := by
          unfold stepCollect
          have hc : res.contains id0 = false := by simpa using hmem
          dsimp only
          rw [hc]
          simp [hfull]
        rw [hstep]
        have hnd' : (res ++ [id0]).Nodup := by
          rw [List.nodup_append]
          refine ⟨hnd, List.nodup_singleton id0, fun x hx hx2 => ?_⟩
          rw [List.mem_singleton] at hx2
          exact hmem (hx2 ▸ hx)
        have hle' : (res ++ [id0]).length ≤ N := by
          rw [List.length_append, List.length_singleton]
          omega
        obtain ⟨a1, a2, a3, a4, a5⟩ := collect_spec N t (res ++ [id0]) hnd' hle'
        refine ⟨a1, a2, ?_, ?_, ?_⟩
        · intro x hx
          rcases a3 x hx with hx2 | hx2
          · rcases List.mem_append.mp hx2 with hx3 | hx3
            · exact Or.inl hx3
            · rw [List.mem_singleton] at hx3
              exact Or.inr (hx3 ▸ List.mem_cons_self id0 t)
          · exact Or.inr (List.mem_cons_of_mem _ hx2)
        · intro x hx
          exact a4 x (List.mem_append_left _ hx)
        · rcases a5 with a5 | a5
          · exact Or.inl a5
          · refine Or.inr fun x hx => ?_
            rcases List.mem_cons.mp hx with hx2 | hx2
            · exact hx2 ▸ a4 id0 (List.mem_append_right _ (List.mem_singleton.mpr rfl))
            · exact a5 x hx2
    · have hres : res.length = N := by omega
      have hstep : stepCollect none N res id0 = res := by
        unfold stepCollect
        have hd : decide (res.length < N) = false := by
          simp only [decide_eq_false_iff_not]
          omega
        dsimp only
        rw [hd]
        simp
      rw [hstep, foldl_step_full none N t res (by omega)]
      exact ⟨hnd, hle, fun x hx => Or.inl hx, fun _ hx => hx, Or.inl hres⟩

theorem mem_rot (l : List Nat) (n p : Nat) :
    p ∈ l.drop n ++ l.take n ↔ p ∈ l := by
  rw [List.mem_append, Or.comm, ← List.mem_append, List.take_append_drop]

/-- C8: on a ring whose positions all resolve to known physical nodes and
on which every physical node owns at least one virtual node (what the
constructor establishes for every node set with vnodes at least 1),
get_replicas with no liveness filter returns exactly min(N, number of
nodes) pairwise-distinct physical node ids, for every key and every N. -/
theorem C8_ring_coverage (r : HashRing) (h : String → Nat) (key : String)
    (N : Nat)
    (W1 : ∀ p ∈ r.ring, r.nodeAt p ∈ r.nodes)
    (W2 : ∀ n ∈ r.nodes, ∃ p ∈ r.ring, r.nodeAt p = n)
    (W3 : r.nodes.Nodup) :
    (r.get_replicas h key N none).length = min N r.nodes.length
    ∧ (r.get_replicas h key N none).Nodup := by
  unfold HashRing.get_replicas
  by_cases he : r.ring.isEmpty
  · rw [if_pos he]
    have hr : r.ring = [] := by simpa using he
    have hn : r.nodes = [] := by
      cases hnodes : r.nodes with
      | nil => rfl
      | cons n t =>
        obtain ⟨p, hp, _⟩ := W2 n (hnodes ▸ List.mem_cons_self n t)
        rw [hr] at hp
        exact absurd hp (List.not_mem_nil p)
    rw [hn]
    simp
  · rw [if_neg he]
    dsimp only
    set idx := bisectRight r.ring (h key) with hidx
    set rot := r.ring.drop idx ++ r.ring.take idx with hrot
    rw [walkRing_eq_foldl r.nodeAt none N rot [] [] (fun _ => rfl)]
    set ws := rot.map r.nodeAt with hws
    obtain ⟨a1, a2, a3, a4, a5⟩ := collect_spec N ws [] List.nodup_nil (by simp)
    set R := ws.foldl (stepCollect none N) [] with hR
    have hmemrot : ∀ p, p ∈ rot ↔ p ∈ r.ring := fun p => mem_rot r.ring idx p
    have hsub : ∀ x ∈ R, x ∈ r.nodes := by
      intro x hx
      rcases a3 x hx with hx2 | hx2
      · exact absurd hx2 (List.not_mem_nil x)
      · obtain ⟨p, hp, hpx⟩ := List.mem_map.mp hx2
        exact hpx ▸ W1 p ((hmemrot p).mp hp)
    have hcover : ∀ n ∈ r.nodes, n ∈ ws := by
      intro n hn
      obtain ⟨p, hp, hpn⟩ := W2 n hn
      exact hpn ▸ List.mem_map_of_mem r.nodeAt ((hmemrot p).mpr hp)
    refine ⟨?_, a1⟩
    rcases a5 with a5 | a5
    · have hsp : R.Subperm r.nodes := List.subperm_of_subset a1 hsub
      have hlen : R.length ≤ r.nodes.length := hsp.length_le
      omega
    · have hsup : ∀ n ∈ r.nodes, n ∈ R := fun n hn => a5 n (hcover n hn)
      have h1 : R.Subperm r.nodes := List.subperm_of_subset a1 hsub
      have h2 : r.nodes.Subperm R := List.subperm_of_subset W3 hsup
      have hlen : R.length = r.nodes.length :=
        le_antisymm h1.length_le h2.length_le
      omega

/-- C8 witness: the concrete ring ringToy (two nodes, one vnode each)
satisfies the well-formedness hypotheses and yields min(N, 2) distinct
nodes for N = 3. -/
theorem C8_ring_coverage_witness :
    (∀ p ∈ ringToy.ring, ringToy.nodeAt p ∈ ringToy.nodes)
    ∧ (∀ n ∈ ringToy.nodes, ∃ p ∈ ringToy.ring, ringToy.nodeAt p = n)
    ∧ ringToy.nodes.Nodup
    ∧ (ringToy.get_replicas hToy "K" 3 none).length =
        min 3 ringToy.nodes.length
    ∧ (ringToy.get_replicas hToy "K" 3 none).Nodup :=
  ⟨by decide, by decide, by decide,
   (C8_ring_coverage ringToy hToy "K" 3 (by decide) (by decide) (by decide)).1,
   (C8_ring_coverage ringToy hToy "K" 3 (by decide) (by decide) (by decide)).2⟩
